import Mathlib

/-!
Shallow embedding of `keras/saving/experimental/saving_lib.py` and a
verification of the traversal, addressing and store-contract properties of
its natural-language specification.

The object graph is modelled as an arena (`List Node`): a trackable object
is a heap index, an attribute holds either a trackable reference, a
container of elements, or an uninteresting value, and `getattr` failure is
an attribute whose access result is `none`.  `_save_state` / `_load_state`
become fuel-indexed state-passing functions over that arena; the
visited-set and the sequence of hook/store events form the threaded state.
Machinery that is pure bookkeeping in the Python (zip I/O, h5py handles,
numpy arrays) is abstracted to the structure the functions actually
inspect.
-/

/-- The result of a successful `getattr`: a Keras trackable (heap index),
a container (list/dict/tuple/set) whose iterated elements are either a
trackable (`some` index) or a non-trackable (`none`), or any other value. -/
inductive AttrValue where
  | track (i : Nat)
  | cont (elems : List (Option Nat))
  | other
deriving DecidableEq

/-- One attribute of a trackable object, as seen by the `dir()` loop of
`_save_state` / `_load_state`.  `val = none` models `getattr` raising. -/
structure Attr where
  name : String
  val : Option AttrValue
deriving DecidableEq

/-- A trackable object of the graph: its runtime class name and the
capability hooks that `hasattr` tests in `_save_state`/`_load_state`,
plus its attributes in `dir()` enumeration order. -/
structure Node where
  className : String
  hasSaveOwnVariables : Bool
  hasSaveAssets : Bool
  hasLoadOwnVariables : Bool
  hasLoadAssets : Bool
  attrs : List Attr
deriving DecidableEq

/-- One processing event of the traversal: the node's identity, the
`inner_path` at which its store locations were made/fetched, and whether
the variables hook and the assets hook actually fired there. -/
structure Event where
  id : Nat
  path : String
  varsHook : Bool
  assetsHook : Bool
deriving DecidableEq

/-- The threaded traversal state: the `visited_trackables` set (insertion
order kept, most recent first) and the event trace. -/
structure TState where
  visited : List Nat
  trace : List Event
deriving DecidableEq

/-- The empty state passed by the four public operations
(`inner_path=""`, `visited_trackables=set()`). -/
def initState : TState := { visited := [], trace := [] }

/-- Transcription of `ATTR_SKIPLIST` (a frozenset in the source; as in the
source, `_non_trainable_weights` is listed twice, which does not affect
membership). -/
def ATTR_SKIPLIST : List String :=
  [ "_callable_losses",
    "_captured_weight_regularizer",
    "_checkpoint_dependencies",
    "_deferred_dependencies",
    "_eager_losses",
    "_inbound_nodes",
    "_inbound_nodes_value",
    "_output_layers",
    "_input_layers",
    "_keras_api_names",
    "_keras_api_names_v1",
    "_name_based_restores",
    "_non_trainable_weights",
    "_outbound_nodes",
    "_outbound_nodes_value",
    "_saved_model_arg_spec",
    "_self_name_based_restores",
    "_self_saveable_object_factories",
    "_self_tracked_trackables",
    "_self_unconditional_checkpoint_dependencies",
    "_self_unconditional_deferred_dependencies",
    "_self_unconditional_dependency_names",
    "_tf_api_names",
    "_tf_api_names_v1",
    "_trainable_weights",
    "_non_trainable_weights",
    "_unconditional_checkpoint_dependencies",
    "_unconditional_dependency_names",
    "_updates",
    "inbound_nodes",
    "submodules",
    "weights",
    "non_trainable_weights",
    "trainable_weights",
    "variables",
    "non_trainable_variables",
    "trainable_variables",
    "updates",
    "state_updates" ]

/-- `tf.io.gfile.join` restricted to the inputs the traversal produces
(relative, non-empty second component): joining onto the empty
`inner_path` yields the component itself. -/
def joinPath (a b : String) : String := if a = "" then b else a ++ "/" ++ b

/-- Modelled from the spec: `keras.utils.generic_utils.to_snake_case`
(the runtime type name "converted to a lowercase/underscore form
(snake_case of the type name)") is imported by `saving_lib.py` from a
module that is not part of this source file.  Uppercase letters are
lowercased and, except at the start, preceded by an underscore. -/
def to_snake_case (s : String) : String :=
  String.mk (s.data.foldl
    (fun acc c =>
      if c.isUpper then
        if acc.isEmpty then acc ++ [c.toLower] else acc ++ ['_', c.toLower]
      else acc ++ [c])
    [])

/-- Association-list lookup, modelling `name in used_names` /
`used_names[name]` on the Python dict. -/
def lookupA {α : Type} : List (String × α) → String → Option α
  | [], _ => none
  | (k, v) :: rest, b => if k = b then some v else lookupA rest b

/-- Association-list update, modelling `used_names[name] = n`. -/
def updateA {α : Type} : List (String × α) → String → α → List (String × α)
  | [], b, n => [(b, n)]
  | (k, v) :: rest, b, n =>
    if k = b then (b, n) :: rest else (k, v) :: updateA rest b n

/-- The shared six-line naming snippet of `_save_container_state` and
`_load_container_state`: first occurrence of a derived name is used as-is
with its counter set to 0; a repeat occurrence increments the counter and
appends it. -/
def nameFor (used : List (String × Nat)) (base : String) :
    String × List (String × Nat) :=
  match lookupA used base with
  | some k => (base ++ "_" ++ toString (k + 1), updateA used base (k + 1))
  | none => (base, (base, 0) :: used)

/-- One iteration of the `for trackable in container` loop of
`_save_container_state`: non-trackable elements (`none`) are skipped, a
trackable element derives its name and is handed to the recursive walk
(`rec`). -/
def saveContainerStep (heap : List Node) (rec : Nat → String → TState → TState)
    (path : String) (acc : List (String × Nat) × TState) (e : Option Nat) :
    List (String × Nat) × TState :=
  match e with
  | none => acc
  | some j =>
    match heap.get? j with
    | none => acc
    | some nd =>
      let p := nameFor acc.1 (to_snake_case nd.className)
      (p.2, rec j (joinPath path p.1) acc.2)

/-- `_save_container_state`: fold the container's elements through
`saveContainerStep`, starting from an empty `used_names` dict. -/
def saveContainerFold (heap : List Node) (rec : Nat → String → TState → TState)
    (elems : List (Option Nat)) (path : String) (st : TState) : TState :=
  (elems.foldl (saveContainerStep heap rec path) ([], st)).2

/-- One iteration of the `for child_attr in dir(trackable)` loop of
`_save_state`: dunder names and skip-listed names are skipped, a raising
`getattr` is swallowed, a trackable child recurses, a container child goes
to `_save_container_state`, anything else is ignored. -/
def saveAttrStep (heap : List Node) (rec : Nat → String → TState → TState)
    (path : String) (st : TState) (a : Attr) : TState :=
  if a.name.startsWith "__" = true ∨ a.name ∈ ATTR_SKIPLIST then st
  else
    match a.val with
    | none => st
    | some (AttrValue.track j) => rec j (joinPath path a.name) st
    | some (AttrValue.cont es) =>
      saveContainerFold heap rec es (joinPath path a.name) st
    | some AttrValue.other => st

/-- The attribute loop of `_save_state`. -/
def saveAttrsFold (heap : List Node) (rec : Nat → String → TState → TState)
    (attrs : List Attr) (path : String) (st : TState) : TState :=
  attrs.foldl (saveAttrStep heap rec path) st

/-- `_save_state`, fuel-indexed (the Python recursion is through the heap;
fuel `heap.length + 1` is shown sufficient below).  On an unvisited node:
the hooks fire (recorded as one `Event`, with the hook flags gated by
`hasattr` and store presence exactly as in the source), the identity is
added to the visited-set, then the attribute loop runs. -/
def saveState (heap : List Node) (wsOn asOn : Bool) :
    Nat → Nat → String → TState → TState
  | 0, _, _, st => st
  | fuel + 1, i, path, st =>
    if i ∈ st.visited then st
    else
      match heap.get? i with
      | none => st
      | some node =>
        saveAttrsFold heap (saveState heap wsOn asOn fuel) node.attrs path
          { visited := i :: st.visited,
            trace := st.trace ++
              [{ id := i, path := path,
                 varsHook := node.hasSaveOwnVariables && wsOn,
                 assetsHook := node.hasSaveAssets && asOn }] }

/-- One iteration of the container loop of `_load_container_state`
(textually the same loop as the save side in the source). -/
def loadContainerStep (heap : List Node) (rec : Nat → String → TState → TState)
    (path : String) (acc : List (String × Nat) × TState) (e : Option Nat) :
    List (String × Nat) × TState :=
  match e with
  | none => acc
  | some j =>
    match heap.get? j with
    | none => acc
    | some nd =>
      let p := nameFor acc.1 (to_snake_case nd.className)
      (p.2, rec j (joinPath path p.1) acc.2)

/-- `_load_container_state`. -/
def loadContainerFold (heap : List Node) (rec : Nat → String → TState → TState)
    (elems : List (Option Nat)) (path : String) (st : TState) : TState :=
  (elems.foldl (loadContainerStep heap rec path) ([], st)).2

/-- One iteration of the attribute loop of `_load_state`. -/
def loadAttrStep (heap : List Node) (rec : Nat → String → TState → TState)
    (path : String) (st : TState) (a : Attr) : TState :=
  if a.name.startsWith "__" = true ∨ a.name ∈ ATTR_SKIPLIST then st
  else
    match a.val with
    | none => st
    | some (AttrValue.track j) => rec j (joinPath path a.name) st
    | some (AttrValue.cont es) =>
      loadContainerFold heap rec es (joinPath path a.name) st
    | some AttrValue.other => st

/-- The attribute loop of `_load_state`. -/
def loadAttrsFold (heap : List Node) (rec : Nat → String → TState → TState)
    (attrs : List Attr) (path : String) (st : TState) : TState :=
  attrs.foldl (loadAttrStep heap rec path) st

/-- `_load_state`, fuel-indexed, mirroring `_save_state` with the load
hooks (`_load_own_variables` / `_load_assets`, and `weights_store.get` /
`assets_store.get`). -/
def loadState (heap : List Node) (wsOn asOn : Bool) :
    Nat → Nat → String → TState → TState
  | 0, _, _, st => st
  | fuel + 1, i, path, st =>
    if i ∈ st.visited then st
    else
      match heap.get? i with
      | none => st
      | some node =>
        loadAttrsFold heap (loadState heap wsOn asOn fuel) node.attrs path
          { visited := i :: st.visited,
            trace := st.trace ++
              [{ id := i, path := path,
                 varsHook := node.hasLoadOwnVariables && wsOn,
                 assetsHook := node.hasLoadAssets && asOn }] }

/-- The contents of a numeric `vars` group; the entry payloads themselves
are never inspected by `saving_lib`, one key per variable suffices. -/
def NumMap : Type := List (String × Nat)

instance : DecidableEq NumMap := by
  unfold NumMap
  infer_instance

/-- Outcome of a store `get`: the `vars` group found at the path, the
literal empty mapping the source returns on absence, or a `KeyError`
escaping (dictionary-style indexing of an absent key). -/
inductive GetResult where
  | found (m : NumMap)
  | emptyMap
  | raised
deriving DecidableEq

/-- The h5 file underneath `H5IOStore`, as the store addresses it: the
optional root-level `vars` group (created by `make("")`), and the groups
keyed by non-empty path, each with its optional `vars` sub-group. -/
structure H5FileModel where
  rootVars : Option NumMap
  groups : List (String × Option NumMap)
deriving DecidableEq

/-- `H5IOStore.get`: the empty path indexes `self.h5_file["vars"]`
directly (dictionary-style indexing, raising on absence); a non-empty
path is guarded by `path in self.h5_file and "vars" in self.h5_file[path]`
and falls back to the empty mapping. -/
def H5IOStore_get (f : H5FileModel) (path : String) : GetResult :=
  if path = "" then
    match f.rootVars with
    | some m => GetResult.found m
    | none => GetResult.raised
  else
    match lookupA f.groups path with
    | some (some m) => GetResult.found m
    | some none => GetResult.emptyMap
    | none => GetResult.emptyMap

/-- The contents of an `NpzIOStore` (in read mode, what `np.load`
exposes): a mapping from path (including the reserved `__root__` key) to
that path's numeric contents. -/
structure NpzStoreModel where
  contents : List (String × NumMap)
deriving DecidableEq

/-- `NpzIOStore.get`: the empty path goes through the `__root__` key
(guarded, empty mapping on absence, `dict(...)` copy on presence); a
non-empty path is guarded by `path in self.contents` (`.tolist()` copy on
presence, empty mapping on absence). -/
def NpzIOStore_get (s : NpzStoreModel) (path : String) : GetResult :=
  if path = "" then
    match lookupA s.contents "__root__" with
    | some m => GetResult.found m
    | none => GetResult.emptyMap
  else
    match lookupA s.contents path with
    | some m => GetResult.found m
    | none => GetResult.emptyMap

/-- Observable filesystem/archive effects of `save_model`, in program
order. -/
inductive SaveEv where
  | archiveCreated
  | metadataWritten
  | configWritten
  | weightsStoreOpened (fmt : String)
  | stateSaved
  | storesClosed
deriving DecidableEq

/-- The usage errors `save_model` can raise. -/
inductive SaveErr where
  | badExtension
  | h5pyMissing
  | unknownFormat
deriving DecidableEq

/-- `str.endswith`, modelled over the character list (the builtin
builtin `String.endsWith` does not reduce under kernel evaluation). -/
def endsWithM (s suffix : String) : Bool := List.isSuffixOf suffix.data s.data

/-- Control-flow skeleton of `save_model` for its validation sequence:
extension check, then the h5py availability check, then (warning, flag,
serialization elided — they create no archive) the zip archive is opened
and metadata/config are written, and only then is `weights_format`
dispatched, with the unknown-format `ValueError` raised inside the
archive `with` block.  Returns the effects that happened and the error
raised, if any. -/
def save_model_m (filepath wformat : String) (h5pyAvailable : Bool) :
    List SaveEv × Option SaveErr :=
  if endsWithM filepath ".keras" = false then ([], some SaveErr.badExtension)
  else if wformat = "h5" ∧ h5pyAvailable = false then
    ([], some SaveErr.h5pyMissing)
  else
    let preamble := [SaveEv.archiveCreated, SaveEv.metadataWritten,
                     SaveEv.configWritten]
    if wformat = "h5" then
      (preamble ++ [SaveEv.weightsStoreOpened "h5", SaveEv.stateSaved,
                    SaveEv.storesClosed], none)
    else if wformat = "npz" then
      (preamble ++ [SaveEv.weightsStoreOpened "npz", SaveEv.stateSaved,
                    SaveEv.storesClosed], none)
    else (preamble, some SaveErr.unknownFormat)

/-- Environment for the `_SAVING_V3_ENABLED` bookkeeping: the flag's prior
value, whether the serialization step (`serialize_keras_object` /
`json.dumps`, which in `save_model` runs after the flag is set but before
the `try`) raises, and whether anything inside the `try` body raises. -/
structure FlagEnv where
  initialFlag : Bool
  serializeRaises : Bool
  bodyRaises : Bool
deriving DecidableEq

/-- What a top-level operation leaves behind: the flag's value after the
operation exits and whether an exception propagated. -/
structure FlagOutcome where
  finalFlag : Bool
  raised : Bool
deriving DecidableEq

/-- Flag bookkeeping of `save_model`: the prior value is read and the flag
set to `True`; serialization then runs outside the `try`/`finally`, so an
exception there escapes with the flag still `True`; the `finally` of the
archive block restores the prior value on the remaining paths. -/
def save_model_flag (e : FlagEnv) : FlagOutcome :=
  if e.serializeRaises then { finalFlag := true, raised := true }
  else { finalFlag := e.initialFlag, raised := e.bodyRaises }

/-- Flag bookkeeping of `load_model`: the flag is set to `True` and the
whole body (including deserialization) runs inside `try`/`finally`, whose
`finally` restores the prior value on every exit path. -/
def load_model_flag (e : FlagEnv) : FlagOutcome :=
  { finalFlag := e.initialFlag, raised := e.serializeRaises || e.bodyRaises }

/-- Configuration of one `DiskIOStore.close()` call: the store's mode and
archive, whether a temporary directory was created and still exists, and
whether `_write_to_zip_recursively` raises partway. -/
structure DiskCloseEnv where
  modeWrite : Bool
  hasArchive : Bool
  hasTmpDir : Bool
  tmpExists : Bool
  copyRaises : Bool
deriving DecidableEq

/-- Outcome of `DiskIOStore.close()`: whether the temporary directory was
removed, and whether an exception propagated. -/
structure CloseOutcome where
  tmpRemoved : Bool
  raised : Bool
deriving DecidableEq

/-- `DiskIOStore.close()`: in write mode with an archive the staged tree
is first copied into the archive (no `try`/`finally` around it), then the
temporary directory, when present, is removed. -/
def DiskIOStore_close (e : DiskCloseEnv) : CloseOutcome :=
  if e.modeWrite && e.hasArchive then
    if e.copyRaises then { tmpRemoved := false, raised := true }
    else { tmpRemoved := e.hasTmpDir && e.tmpExists, raised := false }
  else { tmpRemoved := e.hasTmpDir && e.tmpExists, raised := false }

/-- Derived characterization of the container loops' addressing: the
`(element identity, derived name)` pairs assigned by
`_save_container_state` / `_load_container_state`, computed from the
container alone (proved below to decompose the actual folds).  This is a
proof artifact, not a transcription. -/
def containerEntries (heap : List Node) :
    List (String × Nat) → List (Option Nat) → List (Nat × String)
  | _, [] => []
  | used, e :: rest =>
    match e with
    | none => containerEntries heap used rest
    | some j =>
      match heap.get? j with
      | none => containerEntries heap used rest
      | some nd =>
        let p := nameFor used (to_snake_case nd.className)
        (j, p.1) :: containerEntries heap p.2 rest

/-- Definition following the claim's words, for comparison with
`containerEntries`: given the bases already seen and the remaining derived
base names, the first occurrence of a base is used as-is and the n-th
subsequent occurrence gets the suffix `_n`. -/
def claimNames : List String → List String → List String
  | _, [] => []
  | prev, b :: rest =>
    (if prev.count b = 0 then b else b ++ "_" ++ toString (prev.count b)) ::
      claimNames (prev ++ [b]) rest

/-- The trackable elements of a container together with their nodes, in
encounter order (non-trackables and dangling indices dropped). -/
def trackablePairs (heap : List Node) (elems : List (Option Nat)) :
    List (Nat × Node) :=
  elems.filterMap
    (fun e => e.bind (fun j => (heap.get? j).map (fun nd => (j, nd))))

/-- Preservation of a predicate through `List.foldl`. -/
theorem foldl_pres {α β : Type} (P : β → Prop) (f : β → α → β)
    (h : ∀ b x, P b → P (f b x)) :
    ∀ (l : List α) (b : β), P b → P (l.foldl f b) := by
  intro l
  induction l with
  | nil => intro b hb; exact hb
  | cons x t ih => intro b hb; exact ih (f b x) (h b x hb)

/-- Two `List.foldl`s coincide when their step functions agree on all
states satisfying a predicate preserved by the first. -/
theorem foldl_congr_pres {α β : Type} (P : β → Prop) (f g : β → α → β)
    (hpres : ∀ b x, P b → P (f b x))
    (hagree : ∀ b x, P b → f b x = g b x) :
    ∀ (l : List α) (b : β), P b → l.foldl f b = l.foldl g b := by
  intro l
  induction l with
  | nil => intro b _; rfl
  | cons x t ih =>
    intro b hb
    have h1 : f b x = g b x := hagree b x hb
    calc (x :: t).foldl f b = t.foldl f (f b x) := rfl
    _ = t.foldl g (f b x) := ih (f b x) (hpres b x hb)
    _ = t.foldl g (g b x) := by rw [h1]

/-- Two `List.foldl`s over the same list preserve a binary relation
between their states when their steps do. -/
theorem foldl_rel {α β γ : Type} (R : β → γ → Prop)
    (f : β → α → β) (g : γ → α → γ)
    (hstep : ∀ b c x, R b c → R (f b x) (g c x)) :
    ∀ (l : List α) (b : β) (c : γ), R b c → R (l.foldl f b) (l.foldl g c) := by
  intro l
  induction l with
  | nil => intro b c h; exact h
  | cons x t ih => intro b c h; exact ih (f b x) (g c x) (hstep b c x h)

/-- The traversal invariant: the visited-set holds pairwise-distinct,
in-range identities, and the event trace records exactly the visited
identities, in visit order. -/
def WalkInv (heap : List Node) (st : TState) : Prop :=
  st.visited.Nodup ∧ (∀ j ∈ st.visited, j < heap.length) ∧
    st.trace.map Event.id = st.visited.reverse

theorem initState_inv (heap : List Node) : WalkInv heap initState := by
  refine ⟨List.nodup_nil, ?_, rfl⟩
  intro j hj
  cases hj

theorem visited_le (heap : List Node) (st : TState)
    (h1 : st.visited.Nodup) (h2 : ∀ j ∈ st.visited, j < heap.length) :
    st.visited.length ≤ heap.length := by
  have hsub : st.visited.toFinset ⊆ Finset.range heap.length := by
    intro j hj
    exact Finset.mem_range.mpr (h2 j (List.mem_toFinset.mp hj))
  have hcard := Finset.card_le_card hsub
  rw [List.toFinset_card_of_nodup h1, Finset.card_range] at hcard
  exact hcard

theorem saveContainerStep_pres (heap : List Node)
    (rec : Nat → String → TState → TState) (path : String) (P : TState → Prop)
    (hrec : ∀ i p st, P st → P (rec i p st)) :
    ∀ (acc : List (String × Nat) × TState) (e : Option Nat), P acc.2 →
      P (saveContainerStep heap rec path acc e).2 := by
  intro acc e hacc
  cases e with
  | none => exact hacc
  | some j =>
    cases hj : heap.get? j with
    | none =>
      simp only [saveContainerStep, hj]
      exact hacc
    | some nd =>
      simp only [saveContainerStep, hj]
      exact hrec _ _ _ hacc

theorem saveContainerFold_pres (heap : List Node)
    (rec : Nat → String → TState → TState) (P : TState → Prop)
    (hrec : ∀ i p st, P st → P (rec i p st)) :
    ∀ elems path st, P st → P (saveContainerFold heap rec elems path st) := by
  intro elems path st hst
  exact foldl_pres (fun q : List (String × Nat) × TState => P q.2)
    (saveContainerStep heap rec path)
    (saveContainerStep_pres heap rec path P hrec) elems ([], st) hst

theorem saveAttrStep_pres (heap : List Node)
    (rec : Nat → String → TState → TState) (path : String) (P : TState → Prop)
    (hrec : ∀ i p st, P st → P (rec i p st)) :
    ∀ st a, P st → P (saveAttrStep heap rec path st a) := by
  intro st a hst
  by_cases hskip : a.name.startsWith "__" = true ∨ a.name ∈ ATTR_SKIPLIST
  · simp only [saveAttrStep, if_pos hskip]
    exact hst
  · cases hv : a.val with
    | none =>
      simp only [saveAttrStep, if_neg hskip, hv]
      exact hst
    | some v =>
      cases v with
      | track j =>
        simp only [saveAttrStep, if_neg hskip, hv]
        exact hrec _ _ _ hst
      | cont es =>
        simp only [saveAttrStep, if_neg hskip, hv]
        exact saveContainerFold_pres heap rec P hrec es _ st hst
      | other =>
        simp only [saveAttrStep, if_neg hskip, hv]
        exact hst

theorem saveAttrsFold_pres (heap : List Node)
    (rec : Nat → String → TState → TState) (P : TState → Prop)
    (hrec : ∀ i p st, P st → P (rec i p st)) :
    ∀ attrs path st, P st → P (saveAttrsFold heap rec attrs path st) := by
  intro attrs path st hst
  exact foldl_pres P (saveAttrStep heap rec path)
    (saveAttrStep_pres heap rec path P hrec) attrs st hst

theorem index_lt_of_get (heap : List Node) (i : Nat) (node : Node)
    (hg : heap.get? i = some node) : i < heap.length := by
  rcases List.get?_eq_some.mp hg with ⟨h, _⟩
  exact h

theorem saveState_inv (heap : List Node) (w a : Bool) :
    ∀ fuel i path st, WalkInv heap st →
      WalkInv heap (saveState heap w a fuel i path st) := by
  intro fuel
  induction fuel with
  | zero => intro i path st h; exact h
  | succ f ih =>
    intro i path st h
    by_cases hv : i ∈ st.visited
    · simp only [saveState, if_pos hv]
      exact h
    · cases hg : heap.get? i with
      | none =>
        simp only [saveState, if_neg hv, hg]
        exact h
      | some node =>
        simp only [saveState, if_neg hv, hg]
        apply saveAttrsFold_pres heap (saveState heap w a f) (WalkInv heap) ih
        obtain ⟨h1, h2, h3⟩ := h
        refine ⟨List.nodup_cons.mpr ⟨hv, h1⟩, ?_, ?_⟩
        · intro j hj
          rcases List.mem_cons.mp hj with rfl | hj2
          · exact index_lt_of_get heap j node hg
          · exact h2 j hj2
        · simp only [List.map_append, List.reverse_cons, h3]
          rfl

theorem saveState_mono (heap : List Node) (w a : Bool) :
    ∀ fuel i path st,
      st.visited.length ≤ (saveState heap w a fuel i path st).visited.length := by
  intro fuel
  induction fuel with
  | zero => intro i path st; exact le_refl _
  | succ f ih =>
    intro i path st
    by_cases hv : i ∈ st.visited
    · simp only [saveState, if_pos hv]
      exact le_refl _
    · cases hg : heap.get? i with
      | none =>
        simp only [saveState, if_neg hv, hg]
        exact le_refl _
      | some node =>
        simp only [saveState, if_neg hv, hg]
        have hstep := saveAttrsFold_pres heap (saveState heap w a f)
          (fun s => st.visited.length ≤ s.visited.length)
          (fun i2 p2 s2 hs2 => le_trans hs2 (ih i2 p2 s2)) node.attrs path
          { visited := i :: st.visited,
            trace := st.trace ++
              [{ id := i, path := path,
                 varsHook := node.hasSaveOwnVariables && w,
                 assetsHook := node.hasSaveAssets && a }] }
          (Nat.le_succ _)
        exact hstep

theorem walkInv_push (heap : List Node) (st : TState) (i : Nat) (node : Node)
    (ev : Event) (h : WalkInv heap st) (hv : i ∉ st.visited)
    (hg : heap.get? i = some node) (hev : ev.id = i) :
    WalkInv heap { visited := i :: st.visited, trace := st.trace ++ [ev] } := by
  obtain ⟨h1, h2, h3⟩ := h
  refine ⟨List.nodup_cons.mpr ⟨hv, h1⟩, ?_, ?_⟩
  · intro j hj
    rcases List.mem_cons.mp hj with rfl | hj2
    · exact index_lt_of_get heap j node hg
    · exact h2 j hj2
  · simp only [List.map_append, List.reverse_cons, h3, List.map_cons,
      List.map_nil, hev]

theorem saveContainerFold_congr (heap : List Node)
    (rec1 rec2 : Nat → String → TState → TState) (P : TState → Prop)
    (hpres : ∀ i p st, P st → P (rec1 i p st))
    (hagree : ∀ i p st, P st → rec1 i p st = rec2 i p st) :
    ∀ elems path st, P st →
      saveContainerFold heap rec1 elems path st =
        saveContainerFold heap rec2 elems path st := by
  intro elems path st hst
  unfold saveContainerFold
  rw [foldl_congr_pres (fun q : List (String × Nat) × TState => P q.2)
    (saveContainerStep heap rec1 path) (saveContainerStep heap rec2 path)
    (saveContainerStep_pres heap rec1 path P hpres) ?_ elems ([], st) hst]
  intro b x hb
  cases x with
  | none => rfl
  | some j =>
    cases hj : heap.get? j with
    | none => simp only [saveContainerStep, hj]
    | some nd =>
      simp only [saveContainerStep, hj]
      rw [hagree _ _ _ hb]

theorem saveAttrStep_congr (heap : List Node)
    (rec1 rec2 : Nat → String → TState → TState) (P : TState → Prop)
    (hpres : ∀ i p st, P st → P (rec1 i p st))
    (hagree : ∀ i p st, P st → rec1 i p st = rec2 i p st) :
    ∀ path st x, P st →
      saveAttrStep heap rec1 path st x = saveAttrStep heap rec2 path st x := by
  intro path st x hst
  by_cases hskip : x.name.startsWith "__" = true ∨ x.name ∈ ATTR_SKIPLIST
  · simp only [saveAttrStep, if_pos hskip]
  · cases hv : x.val with
    | none => simp only [saveAttrStep, if_neg hskip, hv]
    | some v =>
      cases v with
      | track j =>
        simp only [saveAttrStep, if_neg hskip, hv]
        exact hagree _ _ _ hst
      | cont es =>
        simp only [saveAttrStep, if_neg hskip, hv]
        exact saveContainerFold_congr heap rec1 rec2 P hpres hagree es _ st hst
      | other => simp only [saveAttrStep, if_neg hskip, hv]

theorem saveState_fuel_succ (heap : List Node) (w a : Bool) :
    ∀ fuel i path st, WalkInv heap st →
      heap.length < fuel + st.visited.length →
      saveState heap w a (fuel + 1) i path st =
        saveState heap w a fuel i path st := by
  intro fuel
  induction fuel with
  | zero =>
    intro i path st h hlt
    exfalso
    have hle := visited_le heap st h.1 h.2.1
    omega
  | succ f ih =>
    intro i path st h hlt
    by_cases hv : i ∈ st.visited
    · simp only [saveState, if_pos hv]
    · cases hg : heap.get? i with
      | none => simp only [saveState, if_neg hv, hg]
      | some node =>
        simp only [saveState, if_neg hv, hg]
        unfold saveAttrsFold
        have hinv1 : WalkInv heap
            { visited := i :: st.visited,
              trace := st.trace ++
                [{ id := i, path := path,
                   varsHook := node.hasSaveOwnVariables && w,
                   assetsHook := node.hasSaveAssets && a }] } :=
          walkInv_push heap st i node _ h hv hg rfl
        have hrec1 : ∀ i2 p2 s2,
            (WalkInv heap s2 ∧ st.visited.length + 1 ≤ s2.visited.length) →
            (WalkInv heap (saveState heap w a (f + 1) i2 p2 s2) ∧
              st.visited.length + 1 ≤
                (saveState heap w a (f + 1) i2 p2 s2).visited.length) := by
          intro i2 p2 s2 hs2
          exact ⟨saveState_inv heap w a (f + 1) i2 p2 s2 hs2.1,
            le_trans hs2.2 (saveState_mono heap w a (f + 1) i2 p2 s2)⟩
        have hagree1 : ∀ i2 p2 s2,
            (WalkInv heap s2 ∧ st.visited.length + 1 ≤ s2.visited.length) →
            saveState heap w a (f + 1) i2 p2 s2 =
              saveState heap w a f i2 p2 s2 := by
          intro i2 p2 s2 hs2
          exact ih i2 p2 s2 hs2.1 (by omega)
        exact foldl_congr_pres
          (fun s => WalkInv heap s ∧ st.visited.length + 1 ≤ s.visited.length)
          (saveAttrStep heap (saveState heap w a (f + 1)) path)
          (saveAttrStep heap (saveState heap w a f) path)
          (saveAttrStep_pres heap (saveState heap w a (f + 1)) path _ hrec1)
          (fun b x hb =>
            saveAttrStep_congr heap (saveState heap w a (f + 1))
              (saveState heap w a f) _ hrec1 hagree1 path b x hb)
          node.attrs _ ⟨hinv1, le_refl _⟩

theorem saveState_fuel_add (heap : List Node) (w a : Bool) :
    ∀ d fuel i path st, WalkInv heap st →
      heap.length < fuel + st.visited.length →
      saveState heap w a (fuel + d) i path st =
        saveState heap w a fuel i path st := by
  intro d
  induction d with
  | zero => intro fuel i path st _ _; rfl
  | succ e ih =>
    intro fuel i path st h hlt
    have h1 : saveState heap w a (fuel + e + 1) i path st =
        saveState heap w a (fuel + e) i path st :=
      saveState_fuel_succ heap w a (fuel + e) i path st h (by omega)
    exact h1.trans (ih fuel i path st h hlt)

theorem loadContainerStep_pres (heap : List Node)
    (rec : Nat → String → TState → TState) (path : String) (P : TState → Prop)
    (hrec : ∀ i p st, P st → P (rec i p st)) :
    ∀ (acc : List (String × Nat) × TState) (e : Option Nat), P acc.2 →
      P (loadContainerStep heap rec path acc e).2 := by
  intro acc e hacc
  cases e with
  | none => exact hacc
  | some j =>
    cases hj : heap.get? j with
    | none =>
      simp only [loadContainerStep, hj]
      exact hacc
    | some nd =>
      simp only [loadContainerStep, hj]
      exact hrec _ _ _ hacc

theorem loadContainerFold_pres (heap : List Node)
    (rec : Nat → String → TState → TState) (P : TState → Prop)
    (hrec : ∀ i p st, P st → P (rec i p st)) :
    ∀ elems path st, P st → P (loadContainerFold heap rec elems path st) := by
  intro elems path st hst
  exact foldl_pres (fun q : List (String × Nat) × TState => P q.2)
    (loadContainerStep heap rec path)
    (loadContainerStep_pres heap rec path P hrec) elems ([], st) hst

theorem loadAttrStep_pres (heap : List Node)
    (rec : Nat → String → TState → TState) (path : String) (P : TState → Prop)
    (hrec : ∀ i p st, P st → P (rec i p st)) :
    ∀ st a, P st → P (loadAttrStep heap rec path st a) := by
  intro st a hst
  by_cases hskip : a.name.startsWith "__" = true ∨ a.name ∈ ATTR_SKIPLIST
  · simp only [loadAttrStep, if_pos hskip]
    exact hst
  · cases hv : a.val with
    | none =>
      simp only [loadAttrStep, if_neg hskip, hv]
      exact hst
    | some v =>
      cases v with
      | track j =>
        simp only [loadAttrStep, if_neg hskip, hv]
        exact hrec _ _ _ hst
      | cont es =>
        simp only [loadAttrStep, if_neg hskip, hv]
        exact loadContainerFold_pres heap rec P hrec es _ st hst
      | other =>
        simp only [loadAttrStep, if_neg hskip, hv]
        exact hst

theorem loadAttrsFold_pres (heap : List Node)
    (rec : Nat → String → TState → TState) (P : TState → Prop)
    (hrec : ∀ i p st, P st → P (rec i p st)) :
    ∀ attrs path st, P st → P (loadAttrsFold heap rec attrs path st) := by
  intro attrs path st hst
  exact foldl_pres P (loadAttrStep heap rec path)
    (loadAttrStep_pres heap rec path P hrec) attrs st hst

theorem loadState_inv (heap : List Node) (w a : Bool) :
    ∀ fuel i path st, WalkInv heap st →
      WalkInv heap (loadState heap w a fuel i path st) := by
  intro fuel
  induction fuel with
  | zero => intro i path st h; exact h
  | succ f ih =>
    intro i path st h
    by_cases hv : i ∈ st.visited
    · simp only [loadState, if_pos hv]
      exact h
    · cases hg : heap.get? i with
      | none =>
        simp only [loadState, if_neg hv, hg]
        exact h
      | some node =>
        simp only [loadState, if_neg hv, hg]
        apply loadAttrsFold_pres heap (loadState heap w a f) (WalkInv heap) ih
        exact walkInv_push heap st i node _ h hv hg rfl

theorem loadState_mono (heap : List Node) (w a : Bool) :
    ∀ fuel i path st,
      st.visited.length ≤ (loadState heap w a fuel i path st).visited.length := by
  intro fuel
  induction fuel with
  | zero => intro i path st; exact le_refl _
  | succ f ih =>
    intro i path st
    by_cases hv : i ∈ st.visited
    · simp only [loadState, if_pos hv]
      exact le_refl _
    · cases hg : heap.get? i with
      | none =>
        simp only [loadState, if_neg hv, hg]
        exact le_refl _
      | some node =>
        simp only [loadState, if_neg hv, hg]
        exact loadAttrsFold_pres heap (loadState heap w a f)
          (fun s => st.visited.length ≤ s.visited.length)
          (fun i2 p2 s2 hs2 => le_trans hs2 (ih i2 p2 s2)) node.attrs path
          { visited := i :: st.visited,
            trace := st.trace ++
              [{ id := i, path := path,
                 varsHook := node.hasLoadOwnVariables && w,
                 assetsHook := node.hasLoadAssets && a }] }
          (Nat.le_succ _)

theorem loadContainerFold_congr (heap : List Node)
    (rec1 rec2 : Nat → String → TState → TState) (P : TState → Prop)
    (hpres : ∀ i p st, P st → P (rec1 i p st))
    (hagree : ∀ i p st, P st → rec1 i p st = rec2 i p st) :
    ∀ elems path st, P st →
      loadContainerFold heap rec1 elems path st =
        loadContainerFold heap rec2 elems path st := by
  intro elems path st hst
  unfold loadContainerFold
  rw [foldl_congr_pres (fun q : List (String × Nat) × TState => P q.2)
    (loadContainerStep heap rec1 path) (loadContainerStep heap rec2 path)
    (loadContainerStep_pres heap rec1 path P hpres) ?_ elems ([], st) hst]
  intro b x hb
  cases x with
  | none => rfl
  | some j =>
    cases hj : heap.get? j with
    | none => simp only [loadContainerStep, hj]
    | some nd =>
      simp only [loadContainerStep, hj]
      rw [hagree _ _ _ hb]

theorem loadAttrStep_congr (heap : List Node)
    (rec1 rec2 : Nat → String → TState → TState) (P : TState → Prop)
    (hpres : ∀ i p st, P st → P (rec1 i p st))
    (hagree : ∀ i p st, P st → rec1 i p st = rec2 i p st) :
    ∀ path st x, P st →
      loadAttrStep heap rec1 path st x = loadAttrStep heap rec2 path st x := by
  intro path st x hst
  by_cases hskip : x.name.startsWith "__" = true ∨ x.name ∈ ATTR_SKIPLIST
  · simp only [loadAttrStep, if_pos hskip]
  · cases hv : x.val with
    | none => simp only [loadAttrStep, if_neg hskip, hv]
    | some v =>
      cases v with
      | track j =>
        simp only [loadAttrStep, if_neg hskip, hv]
        exact hagree _ _ _ hst
      | cont es =>
        simp only [loadAttrStep, if_neg hskip, hv]
        exact loadContainerFold_congr heap rec1 rec2 P hpres hagree es _ st hst
      | other => simp only [loadAttrStep, if_neg hskip, hv]

theorem loadState_fuel_succ (heap : List Node) (w a : Bool) :
    ∀ fuel i path st, WalkInv heap st →
      heap.length < fuel + st.visited.length →
      loadState heap w a (fuel + 1) i path st =
        loadState heap w a fuel i path st := by
  intro fuel
  induction fuel with
  | zero =>
    intro i path st h hlt
    exfalso
    have hle := visited_le heap st h.1 h.2.1
    omega
  | succ f ih =>
    intro i path st h hlt
    by_cases hv : i ∈ st.visited
    · simp only [loadState, if_pos hv]
    · cases hg : heap.get? i with
      | none => simp only [loadState, if_neg hv, hg]
      | some node =>
        simp only [loadState, if_neg hv, hg]
        unfold loadAttrsFold
        have hinv1 : WalkInv heap
            { visited := i :: st.visited,
              trace := st.trace ++
                [{ id := i, path := path,
                   varsHook := node.hasLoadOwnVariables && w,
                   assetsHook := node.hasLoadAssets && a }] } :=
          walkInv_push heap st i node _ h hv hg rfl
        have hrec1 : ∀ i2 p2 s2,
            (WalkInv heap s2 ∧ st.visited.length + 1 ≤ s2.visited.length) →
            (WalkInv heap (loadState heap w a (f + 1) i2 p2 s2) ∧
              st.visited.length + 1 ≤
                (loadState heap w a (f + 1) i2 p2 s2).visited.length) := by
          intro i2 p2 s2 hs2
          exact ⟨loadState_inv heap w a (f + 1) i2 p2 s2 hs2.1,
            le_trans hs2.2 (loadState_mono heap w a (f + 1) i2 p2 s2)⟩
        have hagree1 : ∀ i2 p2 s2,
            (WalkInv heap s2 ∧ st.visited.length + 1 ≤ s2.visited.length) →
            loadState heap w a (f + 1) i2 p2 s2 =
              loadState heap w a f i2 p2 s2 := by
          intro i2 p2 s2 hs2
          exact ih i2 p2 s2 hs2.1 (by omega)
        exact foldl_congr_pres
          (fun s => WalkInv heap s ∧ st.visited.length + 1 ≤ s.visited.length)
          (loadAttrStep heap (loadState heap w a (f + 1)) path)
          (loadAttrStep heap (loadState heap w a f) path)
          (loadAttrStep_pres heap (loadState heap w a (f + 1)) path _ hrec1)
          (fun b x hb =>
            loadAttrStep_congr heap (loadState heap w a (f + 1))
              (loadState heap w a f) _ hrec1 hagree1 path b x hb)
          node.attrs _ ⟨hinv1, le_refl _⟩

theorem loadState_fuel_add (heap : List Node) (w a : Bool) :
    ∀ d fuel i path st, WalkInv heap st →
      heap.length < fuel + st.visited.length →
      loadState heap w a (fuel + d) i path st =
        loadState heap w a fuel i path st := by
  intro d
  induction d with
  | zero => intro fuel i path st _ _; rfl
  | succ e ih =>
    intro fuel i path st h hlt
    have h1 : loadState heap w a (fuel + e + 1) i path st =
        loadState heap w a (fuel + e) i path st :=
      loadState_fuel_succ heap w a (fuel + e) i path st h (by omega)
    exact h1.trans (ih fuel i path st h hlt)

/-- The addressing projection of an event: node identity and logical
path, forgetting which hooks fired. -/
def projEv (e : Event) : Nat × String := (e.id, e.path)

/-- The save/load simulation relation: equal visited-sets and equal
addressing traces. -/
def SimR (stS stL : TState) : Prop :=
  stS.visited = stL.visited ∧ stS.trace.map projEv = stL.trace.map projEv

theorem containerStep_sim (heap : List Node)
    (rec1 rec2 : Nat → String → TState → TState) (path : String)
    (hrec : ∀ i p sS sL, SimR sS sL → SimR (rec1 i p sS) (rec2 i p sL)) :
    ∀ (b c : List (String × Nat) × TState) (e : Option Nat),
      (b.1 = c.1 ∧ SimR b.2 c.2) →
      ((saveContainerStep heap rec1 path b e).1 =
          (loadContainerStep heap rec2 path c e).1 ∧
        SimR (saveContainerStep heap rec1 path b e).2
          (loadContainerStep heap rec2 path c e).2) := by
  intro b c e h
  cases e with
  | none => exact h
  | some j =>
    cases hj : heap.get? j with
    | none =>
      simp only [saveContainerStep, loadContainerStep, hj]
      exact h
    | some nd =>
      simp only [saveContainerStep, loadContainerStep, hj, h.1]
      exact ⟨by trivial, hrec _ _ _ _ h.2⟩

theorem containerFold_sim (heap : List Node)
    (rec1 rec2 : Nat → String → TState → TState)
    (hrec : ∀ i p sS sL, SimR sS sL → SimR (rec1 i p sS) (rec2 i p sL)) :
    ∀ elems path sS sL, SimR sS sL →
      SimR (saveContainerFold heap rec1 elems path sS)
        (loadContainerFold heap rec2 elems path sL) := by
  intro elems path sS sL h
  exact (foldl_rel
    (fun (b c : List (String × Nat) × TState) => b.1 = c.1 ∧ SimR b.2 c.2)
    (saveContainerStep heap rec1 path) (loadContainerStep heap rec2 path)
    (containerStep_sim heap rec1 rec2 path hrec) elems ([], sS) ([], sL)
    ⟨rfl, h⟩).2

theorem attrStep_sim (heap : List Node)
    (rec1 rec2 : Nat → String → TState → TState) (path : String)
    (hrec : ∀ i p sS sL, SimR sS sL → SimR (rec1 i p sS) (rec2 i p sL)) :
    ∀ sS sL x, SimR sS sL →
      SimR (saveAttrStep heap rec1 path sS x) (loadAttrStep heap rec2 path sL x) := by
  intro sS sL x h
  by_cases hskip : x.name.startsWith "__" = true ∨ x.name ∈ ATTR_SKIPLIST
  · simp only [saveAttrStep, loadAttrStep, if_pos hskip]
    exact h
  · cases hv : x.val with
    | none =>
      simp only [saveAttrStep, loadAttrStep, if_neg hskip, hv]
      exact h
    | some v =>
      cases v with
      | track j =>
        simp only [saveAttrStep, loadAttrStep, if_neg hskip, hv]
        exact hrec _ _ _ _ h
      | cont es =>
        simp only [saveAttrStep, loadAttrStep, if_neg hskip, hv]
        exact containerFold_sim heap rec1 rec2 hrec es _ _ _ h
      | other =>
        simp only [saveAttrStep, loadAttrStep, if_neg hskip, hv]
        exact h

theorem walk_sim (heap : List Node) (w1 a1 w2 a2 : Bool) :
    ∀ fuel i path stS stL, SimR stS stL →
      SimR (saveState heap w1 a1 fuel i path stS)
        (loadState heap w2 a2 fuel i path stL) := by
  intro fuel
  induction fuel with
  | zero => intro i path stS stL h; exact h
  | succ f ih =>
    intro i path stS stL h
    obtain ⟨hvis, htr⟩ := h
    by_cases hv : i ∈ stS.visited
    · have hv2 : i ∈ stL.visited := by rw [← hvis]; exact hv
      simp only [saveState, loadState, if_pos hv, if_pos hv2]
      exact ⟨hvis, htr⟩
    · have hv2 : i ∉ stL.visited := by rw [← hvis]; exact hv
      cases hg : heap.get? i with
      | none =>
        simp only [saveState, loadState, if_neg hv, if_neg hv2, hg]
        exact ⟨hvis, htr⟩
      | some node =>
        simp only [saveState, loadState, if_neg hv, if_neg hv2, hg]
        apply foldl_rel SimR
          (saveAttrStep heap (saveState heap w1 a1 f) path)
          (loadAttrStep heap (loadState heap w2 a2 f) path)
          (attrStep_sim heap _ _ path ih) node.attrs
        constructor
        · rw [hvis]
        · simp only [List.map_append, List.map_cons, List.map_nil, htr]
          rfl

theorem saveContainerFold_entries_aux (heap : List Node)
    (rec : Nat → String → TState → TState) (path : String) :
    ∀ (elems : List (Option Nat)) (used : List (String × Nat)) (st : TState),
      (elems.foldl (saveContainerStep heap rec path) (used, st)).2 =
        (containerEntries heap used elems).foldl
          (fun s q => rec q.1 (joinPath path q.2) s) st := by
  intro elems
  induction elems with
  | nil => intro used st; rfl
  | cons e rest ih =>
    intro used st
    cases e with
    | none =>
      simp only [List.foldl_cons, saveContainerStep, containerEntries]
      exact ih used st
    | some j =>
      cases hj : heap.get? j with
      | none =>
        simp only [List.foldl_cons, saveContainerStep, containerEntries, hj]
        exact ih used st
      | some nd =>
        simp only [List.foldl_cons, saveContainerStep, containerEntries, hj,
          List.foldl_cons]
        exact ih _ _

/-- Decomposition of `_save_container_state`: the interleaved
naming-and-recursion loop equals naming first (`containerEntries`, which
does not see the traversal state) and then recursing on each named
element in order. -/
theorem saveContainerFold_entries (heap : List Node)
    (rec : Nat → String → TState → TState) (elems : List (Option Nat))
    (path : String) (st : TState) :
    saveContainerFold heap rec elems path st =
      (containerEntries heap [] elems).foldl
        (fun s q => rec q.1 (joinPath path q.2) s) st :=
  saveContainerFold_entries_aux heap rec path elems [] st

theorem loadContainerFold_entries_aux (heap : List Node)
    (rec : Nat → String → TState → TState) (path : String) :
    ∀ (elems : List (Option Nat)) (used : List (String × Nat)) (st : TState),
      (elems.foldl (loadContainerStep heap rec path) (used, st)).2 =
        (containerEntries heap used elems).foldl
          (fun s q => rec q.1 (joinPath path q.2) s) st := by
  intro elems
  induction elems with
  | nil => intro used st; rfl
  | cons e rest ih =>
    intro used st
    cases e with
    | none =>
      simp only [List.foldl_cons, loadContainerStep, containerEntries]
      exact ih used st
    | some j =>
      cases hj : heap.get? j with
      | none =>
        simp only [List.foldl_cons, loadContainerStep, containerEntries, hj]
        exact ih used st
      | some nd =>
        simp only [List.foldl_cons, loadContainerStep, containerEntries, hj,
          List.foldl_cons]
        exact ih _ _

/-- Decomposition of `_load_container_state`, mirroring the save side. -/
theorem loadContainerFold_entries (heap : List Node)
    (rec : Nat → String → TState → TState) (elems : List (Option Nat))
    (path : String) (st : TState) :
    loadContainerFold heap rec elems path st =
      (containerEntries heap [] elems).foldl
        (fun s q => rec q.1 (joinPath path q.2) s) st :=
  loadContainerFold_entries_aux heap rec path elems [] st

theorem lookupA_update_self {α : Type} :
    ∀ (used : List (String × α)) (b : String) (n : α),
      lookupA (updateA used b n) b = some n := by
  intro used
  induction used with
  | nil => intro b n; simp [updateA, lookupA]
  | cons kv rest ih =>
    intro b n
    obtain ⟨k, v⟩ := kv
    by_cases hk : k = b
    · subst hk
      simp [updateA, lookupA]
    · simp only [updateA, if_neg hk, lookupA]
      exact ih b n

theorem lookupA_update_ne {α : Type} :
    ∀ (used : List (String × α)) (b b2 : String) (n : α), b2 ≠ b →
      lookupA (updateA used b n) b2 = lookupA used b2 := by
  intro used
  induction used with
  | nil =>
    intro b b2 n hne
    simp only [updateA, lookupA]
    rw [if_neg (fun h => hne h.symm)]
  | cons kv rest ih =>
    intro b b2 n hne
    obtain ⟨k, v⟩ := kv
    by_cases hk : k = b
    · subst hk
      simp only [updateA, if_pos rfl, lookupA]
      rw [if_neg (fun h => hne h.symm), if_neg (fun h => hne h.symm)]
    · simp only [updateA, if_neg hk, lookupA]
      by_cases hk2 : k = b2
      · rw [if_pos hk2, if_pos hk2]
      · rw [if_neg hk2, if_neg hk2]
        exact ih b b2 n hne

theorem trackablePairs_cons_none (heap : List Node) (rest : List (Option Nat)) :
    trackablePairs heap (none :: rest) = trackablePairs heap rest := rfl

theorem trackablePairs_cons_dangling (heap : List Node) (j : Nat)
    (rest : List (Option Nat)) (hj : heap.get? j = none) :
    trackablePairs heap (some j :: rest) = trackablePairs heap rest := by
  have hj2 : heap[j]? = none := by
    rw [← List.get?_eq_getElem?]
    exact hj
  simp [trackablePairs, List.filterMap_cons, hj2]

theorem trackablePairs_cons_node (heap : List Node) (j : Nat) (nd : Node)
    (rest : List (Option Nat)) (hj : heap.get? j = some nd) :
    trackablePairs heap (some j :: rest) =
      (j, nd) :: trackablePairs heap rest := by
  have hj2 : heap[j]? = some nd := by
    rw [← List.get?_eq_getElem?]
    exact hj
  simp [trackablePairs, List.filterMap_cons, hj2]

/-- Correspondence of the Python `used_names` dict with pure occurrence
counting: a base occurs `n > 0` times in `prev` exactly when the dict maps
it to `n - 1`. -/
def CntInv (used : List (String × Nat)) (prev : List String) : Prop :=
  ∀ b, lookupA used b =
    if prev.count b = 0 then none else some (prev.count b - 1)

theorem cntInv_nil : CntInv [] [] := by
  intro b
  simp [lookupA, List.count_nil]

theorem cntInv_push (used : List (String × Nat)) (prev : List String)
    (base : String) (h : CntInv used prev) :
    CntInv
      (match lookupA used base with
        | some k => updateA used base (k + 1)
        | none => (base, 0) :: used)
      (prev ++ [base]) := by
  have hb := h base
  cases hlk : lookupA used base with
  | none =>
    rw [hlk] at hb
    have hcnt : prev.count base = 0 := by
      by_contra hc
      rw [if_neg hc] at hb
      exact Option.noConfusion hb
    intro b
    show (if base = b then some 0 else lookupA used b) =
      if (prev ++ [base]).count b = 0 then none
      else some ((prev ++ [base]).count b - 1)
    by_cases hbb : base = b
    · subst hbb
      rw [if_pos rfl]
      have hc2 : (prev ++ [base]).count base = 1 := by
        rw [List.count_append, hcnt, List.count_singleton,
          if_pos (beq_self_eq_true base)]
      rw [hc2]
      rfl
    · rw [if_neg hbb]
      have hnb : ¬ ((base == b) = true) := by
        simp only [beq_iff_eq]
        exact hbb
      have hone : List.count b [base] = 0 := by
        rw [List.count_singleton, if_neg hnb]
      rw [List.count_append, hone, Nat.add_zero]
      exact h b
  | some k =>
    rw [hlk] at hb
    have hcnt : prev.count base = k + 1 := by
      by_cases hc : prev.count base = 0
      · rw [if_pos hc] at hb
        exact Option.noConfusion hb
      · rw [if_neg hc] at hb
        have h2 := Option.some_inj.mp hb
        omega
    intro b
    by_cases hbb : base = b
    · rw [← hbb]
      rw [lookupA_update_self]
      have hc2 : (prev ++ [base]).count base = k + 2 := by
        rw [List.count_append, hcnt, List.count_singleton,
          if_pos (beq_self_eq_true base)]
      rw [hc2]
      rfl
    · rw [lookupA_update_ne used base b (k + 1) (fun h2 => hbb h2.symm)]
      have hnb : ¬ ((base == b) = true) := by
        simp only [beq_iff_eq]
        exact hbb
      have hone : List.count b [base] = 0 := by
        rw [List.count_singleton, if_neg hnb]
      rw [List.count_append, hone, Nat.add_zero]
      exact h b

theorem containerEntries_spec (heap : List Node) :
    ∀ (elems : List (Option Nat)) (used : List (String × Nat))
      (prev : List String), CntInv used prev →
      (containerEntries heap used elems).map Prod.snd =
        claimNames prev
          ((trackablePairs heap elems).map
            (fun q => to_snake_case q.2.className)) ∧
      (containerEntries heap used elems).map Prod.fst =
        (trackablePairs heap elems).map Prod.fst := by
  intro elems
  induction elems with
  | nil => intro used prev h; exact ⟨rfl, rfl⟩
  | cons e rest ih =>
    intro used prev h
    cases e with
    | none =>
      rw [trackablePairs_cons_none]
      simp only [containerEntries]
      exact ih used prev h
    | some j =>
      cases hj : heap.get? j with
      | none =>
        rw [trackablePairs_cons_dangling heap j rest hj]
        simp only [containerEntries, hj]
        exact ih used prev h
      | some nd =>
        rw [trackablePairs_cons_node heap j nd rest hj]
        have hbase := h (to_snake_case nd.className)
        have hpush := cntInv_push used prev (to_snake_case nd.className) h
        cases hlk : lookupA used (to_snake_case nd.className) with
        | none =>
          rw [hlk] at hbase hpush
          have hcnt : prev.count (to_snake_case nd.className) = 0 := by
            by_contra hc
            rw [if_neg hc] at hbase
            exact Option.noConfusion hbase
          simp only [containerEntries, hj, nameFor, hlk, List.map_cons,
            claimNames]
          refine ⟨?_, ?_⟩
          · rw [if_pos hcnt]
            rw [(ih _ _ hpush).1]
          · rw [(ih _ _ hpush).2]
        | some k =>
          rw [hlk] at hbase hpush
          have hcnt : prev.count (to_snake_case nd.className) = k + 1 := by
            by_cases hc : prev.count (to_snake_case nd.className) = 0
            · rw [if_pos hc] at hbase
              exact Option.noConfusion hbase
            · rw [if_neg hc] at hbase
              have h2 := Option.some_inj.mp hbase
              omega
          simp only [containerEntries, hj, nameFor, hlk, List.map_cons,
            claimNames]
          refine ⟨?_, ?_⟩
          · rw [if_neg (by omega : ¬ prev.count (to_snake_case nd.className) = 0)]
            rw [hcnt]
            rw [(ih _ _ hpush).1]
          · rw [(ih _ _ hpush).2]

theorem trace_len_le (heap : List Node) (st : TState) (h : WalkInv heap st) :
    st.trace.length ≤ heap.length := by
  have h2 := congrArg List.length h.2.2
  rw [List.length_map, List.length_reverse] at h2
  rw [h2]
  exact visited_le heap st h.1 h.2.1

theorem trace_ids_nodup (heap : List Node) (st : TState) (h : WalkInv heap st) :
    (st.trace.map Event.id).Nodup := by
  rw [h.2.2]
  exact List.nodup_reverse.mpr h.1

/-- The `used_names` bookkeeping of the container loop is a function of
the container's contents and order alone: it ignores the traversal state
(in particular the visited-set) and the recursive walk entirely. -/
theorem containerUsed_indep (heap : List Node) (path1 path2 : String)
    (rec1 rec2 : Nat → String → TState → TState) :
    ∀ (elems : List (Option Nat)) (used : List (String × Nat))
      (st1 st2 : TState),
      (elems.foldl (saveContainerStep heap rec1 path1) (used, st1)).1 =
        (elems.foldl (saveContainerStep heap rec2 path2) (used, st2)).1 := by
  intro elems
  induction elems with
  | nil => intro used st1 st2; rfl
  | cons e rest ih =>
    intro used st1 st2
    cases e with
    | none => exact ih used st1 st2
    | some j =>
      cases hj : heap.get? j with
      | none =>
        simp only [List.foldl_cons, saveContainerStep, hj]
        exact ih used st1 st2
      | some nd =>
        simp only [List.foldl_cons, saveContainerStep, hj]
        exact ih _ _ _

/-- A two-node heap whose nodes share the runtime class name `Foo`, used
to exercise container naming against a repeated identity. -/
def heapFooPair : List Node :=
  [ { className := "Foo", hasSaveOwnVariables := true, hasSaveAssets := false,
      hasLoadOwnVariables := true, hasLoadAssets := false, attrs := [] },
    { className := "Foo", hasSaveOwnVariables := true, hasSaveAssets := false,
      hasLoadOwnVariables := true, hasLoadAssets := false, attrs := [] } ]

/-- A two-node heap with a reference cycle: node 0 holds node 1 in
attribute `b`, and node 1 holds node 0 back in attribute `a`. -/
def heapCycle : List Node :=
  [ { className := "A", hasSaveOwnVariables := true, hasSaveAssets := false,
      hasLoadOwnVariables := true, hasLoadAssets := false,
      attrs := [{ name := "b", val := some (AttrValue.track 1) }] },
    { className := "B", hasSaveOwnVariables := true, hasSaveAssets := false,
      hasLoadOwnVariables := true, hasLoadAssets := false,
      attrs := [{ name := "a", val := some (AttrValue.track 0) }] } ]

/-- Claim C1: in every save or load operation (all four public entry
points start the walk with `inner_path=""` and a fresh visited-set), each
node identity enters the visited-set at most once, the per-node event
(hook invocation / store-location creation) happens at most once per
identity and hence at the path of first encounter, the total work is
bounded by the number of nodes, and the traversal is insensitive to any
extra fuel beyond `heap.length + 1` — it terminates even on cyclic or
shared-reference graphs, as the `heapCycle` instance exhibits
concretely. -/
theorem claim_C1 (heap : List Node) (wS aS wL aL : Bool) (root : Nat) :
    ((saveState heap wS aS (heap.length + 1) root "" initState).visited.Nodup ∧
      ((saveState heap wS aS (heap.length + 1) root "" initState).trace.map
          Event.id).Nodup ∧
      (saveState heap wS aS (heap.length + 1) root "" initState).trace.length ≤
        heap.length ∧
      (∀ extra,
        saveState heap wS aS (heap.length + 1 + extra) root "" initState =
          saveState heap wS aS (heap.length + 1) root "" initState)) ∧
    ((loadState heap wL aL (heap.length + 1) root "" initState).visited.Nodup ∧
      ((loadState heap wL aL (heap.length + 1) root "" initState).trace.map
          Event.id).Nodup ∧
      (loadState heap wL aL (heap.length + 1) root "" initState).trace.length ≤
        heap.length ∧
      (∀ extra,
        loadState heap wL aL (heap.length + 1 + extra) root "" initState =
          loadState heap wL aL (heap.length + 1) root "" initState)) ∧
    (saveState heapCycle true true (heapCycle.length + 1) 0 "" initState).trace.map
        projEv = [(0, ""), (1, "b")] := by
  have hS := saveState_inv heap wS aS (heap.length + 1) root "" initState
    (initState_inv heap)
  have hL := loadState_inv heap wL aL (heap.length + 1) root "" initState
    (initState_inv heap)
  have hlt : heap.length < (heap.length + 1) + initState.visited.length := by
    show heap.length < heap.length + 1 + 0
    omega
  refine ⟨⟨hS.1, trace_ids_nodup heap _ hS, trace_len_le heap _ hS, ?_⟩,
    ⟨hL.1, trace_ids_nodup heap _ hL, trace_len_le heap _ hL, ?_⟩, ?_⟩
  · intro extra
    exact saveState_fuel_add heap wS aS extra (heap.length + 1) root ""
      initState (initState_inv heap) hlt
  · intro extra
    exact loadState_fuel_add heap wL aL extra (heap.length + 1) root ""
      initState (initState_inv heap) hlt
  · decide

/-- Claim C2: the container loops assign each trackable element a name
derived from the snake_case of its runtime class — first occurrence of a
base unsuffixed with its counter at 0, the n-th repeat suffixed `_n` in
encounter order — while non-trackable elements consume no name and leave
the counters untouched.  Stated as: both container walks decompose over
`containerEntries`, whose names equal the claim's naming rule
(`claimNames`) applied to the trackable elements' snake_cased class
names, and whose identities are exactly the trackable elements. -/
theorem claim_C2 (heap : List Node) :
    (∀ (rec : Nat → String → TState → TState) (elems : List (Option Nat))
        (path : String) (st : TState),
      saveContainerFold heap rec elems path st =
        (containerEntries heap [] elems).foldl
          (fun s q => rec q.1 (joinPath path q.2) s) st ∧
      loadContainerFold heap rec elems path st =
        (containerEntries heap [] elems).foldl
          (fun s q => rec q.1 (joinPath path q.2) s) st) ∧
    (∀ elems : List (Option Nat),
      (containerEntries heap [] elems).map Prod.snd =
        claimNames []
          ((trackablePairs heap elems).map
            (fun q => to_snake_case q.2.className)) ∧
      (containerEntries heap [] elems).map Prod.fst =
        (trackablePairs heap elems).map Prod.fst) := by
  constructor
  · intro rec elems path st
    exact ⟨saveContainerFold_entries heap rec elems path st,
      loadContainerFold_entries heap rec elems path st⟩
  · intro elems
    exact containerEntries_spec heap elems [] [] cntInv_nil

/-- Claim C3: for structurally matching object graphs (the same arena of
attribute names, orders, container contents and element classes), the
sequence of logical paths computed by `_save_state` from `inner_path=""`
with a fresh visited-set is identical to the one computed by
`_load_state` under the same start conditions, for any store
configurations and any fuel; the visited-sets coincide as well. -/
theorem claim_C3 (heap : List Node) (wS aS wL aL : Bool) (root : Nat)
    (fuel : Nat) :
    (saveState heap wS aS fuel root "" initState).trace.map Event.path =
      (loadState heap wL aL fuel root "" initState).trace.map Event.path ∧
    (saveState heap wS aS fuel root "" initState).visited =
      (loadState heap wL aL fuel root "" initState).visited := by
  have hsim := walk_sim heap wS aS wL aL fuel root "" initState initState
    ⟨rfl, rfl⟩
  constructor
  · have hproj : ∀ t : List Event,
        t.map Event.path = (t.map projEv).map Prod.snd := by
      intro t
      rw [List.map_map]
      rfl
    rw [hproj, hproj, hsim.2]
  · exact hsim.1

/-- Claim C10: a trackable container element still derives a name and
still advances the per-container `used_names` counters even when its
identity is already in the visited-set — the counters are a function of
the container alone, independent of the traversal state and of the walk
itself — so in a container `[A, A, B]` of one class the derived names are
`foo`, `foo_1`, `foo_2` in order, while the store only ever sees `foo`
and `foo_2`: `foo_1` belongs to the second occurrence of `A`, which the
visited-set guard inside `_save_state` skips. -/
theorem claim_C10 :
    (∀ (heap : List Node) (path1 path2 : String)
        (rec1 rec2 : Nat → String → TState → TState)
        (elems : List (Option Nat)) (used : List (String × Nat))
        (st1 st2 : TState),
      (elems.foldl (saveContainerStep heap rec1 path1) (used, st1)).1 =
        (elems.foldl (saveContainerStep heap rec2 path2) (used, st2)).1) ∧
    containerEntries heapFooPair [] [some 0, some 0, some 1] =
      [(0, "foo"), (0, "foo_1"), (1, "foo_2")] ∧
    (saveContainerFold heapFooPair (saveState heapFooPair true true 3)
        [some 0, some 0, some 1] "" initState).trace.map Event.path =
      ["foo", "foo_2"] ∧
    "foo_1" ∉
      (saveContainerFold heapFooPair (saveState heapFooPair true true 3)
        [some 0, some 0, some 1] "" initState).trace.map Event.path := by
  refine ⟨?_, by decide, by decide, by decide⟩
  intro heap path1 path2 rec1 rec2 elems used st1 st2
  exact containerUsed_indep heap path1 path2 rec1 rec2 elems used st1 st2

/-- Claim C7: an attribute of a node is traversed exactly when its name
does not start with `__`, is not in `ATTR_SKIPLIST`, and its access does
not raise; a dunder or skip-listed attribute is a no-op even when its
value is trackable, a raising access is swallowed as a no-op, and a
surviving trackable or container attribute is dispatched at
`inner_path/attr_name` — identically in `_save_state` and
`_load_state`. -/
theorem claim_C7 (heap : List Node) (rec : Nat → String → TState → TState)
    (path : String) (st : TState) (x : Attr) :
    ((x.name.startsWith "__" = true ∨ x.name ∈ ATTR_SKIPLIST) →
      saveAttrStep heap rec path st x = st ∧
        loadAttrStep heap rec path st x = st) ∧
    (x.val = none →
      saveAttrStep heap rec path st x = st ∧
        loadAttrStep heap rec path st x = st) ∧
    (x.name.startsWith "__" = false → x.name ∉ ATTR_SKIPLIST →
      (∀ j, x.val = some (AttrValue.track j) →
        saveAttrStep heap rec path st x = rec j (joinPath path x.name) st ∧
          loadAttrStep heap rec path st x = rec j (joinPath path x.name) st) ∧
      (∀ es, x.val = some (AttrValue.cont es) →
        saveAttrStep heap rec path st x =
            saveContainerFold heap rec es (joinPath path x.name) st ∧
          loadAttrStep heap rec path st x =
            loadContainerFold heap rec es (joinPath path x.name) st) ∧
      (x.val = some AttrValue.other →
        saveAttrStep heap rec path st x = st ∧
          loadAttrStep heap rec path st x = st)) := by
  refine ⟨?_, ?_, ?_⟩
  · intro hskip
    exact ⟨by simp only [saveAttrStep, if_pos hskip],
      by simp only [loadAttrStep, if_pos hskip]⟩
  · intro hnone
    by_cases hskip : x.name.startsWith "__" = true ∨ x.name ∈ ATTR_SKIPLIST
    · exact ⟨by simp only [saveAttrStep, if_pos hskip],
        by simp only [loadAttrStep, if_pos hskip]⟩
    · exact ⟨by simp only [saveAttrStep, if_neg hskip, hnone],
        by simp only [loadAttrStep, if_neg hskip, hnone]⟩
  · intro hns hnm
    have hskip : ¬ (x.name.startsWith "__" = true ∨ x.name ∈ ATTR_SKIPLIST) := by
      intro hor
      rcases hor with h1 | h2
      · rw [hns] at h1
        exact Bool.noConfusion h1
      · exact hnm h2
    refine ⟨?_, ?_, ?_⟩
    · intro j hj
      exact ⟨by simp only [saveAttrStep, if_neg hskip, hj],
        by simp only [loadAttrStep, if_neg hskip, hj]⟩
    · intro es hes
      exact ⟨by simp only [saveAttrStep, if_neg hskip, hes],
        by simp only [loadAttrStep, if_neg hskip, hes]⟩
    · intro ho
      exact ⟨by simp only [saveAttrStep, if_neg hskip, ho],
        by simp only [loadAttrStep, if_neg hskip, ho]⟩

/-- Witness for claim C7: the skip-listed attribute name `weights` with a
trackable value is a no-op for both walks. -/
theorem claim_C7_witness :
    saveAttrStep [] (fun _ _ s => s) "" initState
        { name := "weights", val := some (AttrValue.track 0) } = initState ∧
      loadAttrStep [] (fun _ _ s => s) "" initState
        { name := "weights", val := some (AttrValue.track 0) } = initState := by
  have h := claim_C7 [] (fun _ _ s => s) "" initState
    { name := "weights", val := some (AttrValue.track 0) }
  exact h.1 (Or.inr (by decide))

/-- Counterexample to claim C4 as stated: on the empty path over an h5
file without a root `vars` group, `H5IOStore.get` indexes
`self.h5_file["vars"]` unguarded and raises instead of returning an empty
mapping. -/
theorem claim_C4_counterexample :
    H5IOStore_get { rootVars := none, groups := [] } "" = GetResult.raised ∧
      GetResult.raised ≠ GetResult.emptyMap := by
  exact ⟨rfl, by decide⟩

/-- Claim C4 (amended): for every non-empty path, `H5IOStore.get` never
raises, and returns the empty mapping when the path is absent or lacks
the `vars` sub-group; `NpzIOStore.get` never raises on any path,
including the empty one, and returns the empty mapping on absence. -/
theorem claim_C4 (f : H5FileModel) (s : NpzStoreModel) (path : String) :
    (path ≠ "" →
      H5IOStore_get f path ≠ GetResult.raised ∧
      (lookupA f.groups path = none →
        H5IOStore_get f path = GetResult.emptyMap) ∧
      (lookupA f.groups path = some none →
        H5IOStore_get f path = GetResult.emptyMap)) ∧
    NpzIOStore_get s path ≠ GetResult.raised ∧
    (path ≠ "" → lookupA s.contents path = none →
      NpzIOStore_get s path = GetResult.emptyMap) ∧
    (path = "" → lookupA s.contents "__root__" = none →
      NpzIOStore_get s path = GetResult.emptyMap) := by
  refine ⟨?_, ?_, ?_, ?_⟩
  · intro hne
    refine ⟨?_, ?_, ?_⟩
    · cases hlk : lookupA f.groups path with
      | none =>
        simp only [H5IOStore_get, if_neg hne, hlk]
        decide
      | some o =>
        cases o with
        | none =>
          simp only [H5IOStore_get, if_neg hne, hlk]
          decide
        | some m =>
          simp only [H5IOStore_get, if_neg hne, hlk]
          intro hcon
          exact GetResult.noConfusion hcon
    · intro hlk
      simp only [H5IOStore_get, if_neg hne, hlk]
    · intro hlk
      simp only [H5IOStore_get, if_neg hne, hlk]
  · by_cases hpe : path = ""
    · cases hlk : lookupA s.contents "__root__" with
      | none =>
        simp only [NpzIOStore_get, if_pos hpe, hlk]
        decide
      | some m =>
        simp only [NpzIOStore_get, if_pos hpe, hlk]
        intro hcon
        exact GetResult.noConfusion hcon
    · cases hlk : lookupA s.contents path with
      | none =>
        simp only [NpzIOStore_get, if_neg hpe, hlk]
        decide
      | some m =>
        simp only [NpzIOStore_get, if_neg hpe, hlk]
        intro hcon
        exact GetResult.noConfusion hcon
  · intro hne hlk
    simp only [NpzIOStore_get, if_neg hne, hlk]
  · intro hpe hlk
    simp only [NpzIOStore_get, if_pos hpe, hlk]

/-- Witness for claim C4: never-written locations read back as the empty
mapping on both numeric stores. -/
theorem claim_C4_witness :
    H5IOStore_get { rootVars := none, groups := [] } "dense" =
        GetResult.emptyMap ∧
      NpzIOStore_get { contents := [] } "dense" = GetResult.emptyMap := by
  have h := claim_C4 { rootVars := none, groups := [] } { contents := [] }
    "dense"
  exact ⟨(h.1 (by decide)).2.1 rfl, h.2.2.1 (by decide) rfl⟩

/-- Counterexample to claim C5 as stated: an unknown `weights_format` is
only rejected after the zip archive has been created and the metadata and
config members written — not before any archive file is created or
mutated. -/
theorem claim_C5_counterexample :
    (save_model_m "model.keras" "gif" true).2 = some SaveErr.unknownFormat ∧
      SaveEv.archiveCreated ∈ (save_model_m "model.keras" "gif" true).1 := by
  exact ⟨by decide, by decide⟩

/-- Claim C5 (amended): a bad extension and a missing h5py fail before any
archive effect, while an unknown `weights_format` fails only after the
archive is created and metadata and config are written. -/
theorem claim_C5 (filepath wformat : String) (h5py : Bool) :
    ((save_model_m filepath wformat h5py).2 = some SaveErr.badExtension →
      (save_model_m filepath wformat h5py).1 = []) ∧
    ((save_model_m filepath wformat h5py).2 = some SaveErr.h5pyMissing →
      (save_model_m filepath wformat h5py).1 = []) ∧
    ((save_model_m filepath wformat h5py).2 = some SaveErr.unknownFormat →
      (save_model_m filepath wformat h5py).1 =
        [SaveEv.archiveCreated, SaveEv.metadataWritten,
         SaveEv.configWritten]) := by
  by_cases h1 : endsWithM filepath ".keras" = false
  · refine ⟨fun _ => ?_, fun h => ?_, fun h => ?_⟩
    · simp [save_model_m, if_pos h1]
    · simp [save_model_m, if_pos h1] at h
    · simp [save_model_m, if_pos h1] at h
  · by_cases h2 : wformat = "h5" ∧ h5py = false
    · refine ⟨fun h => ?_, fun _ => ?_, fun h => ?_⟩
      · simp [save_model_m, if_neg h1, if_pos h2] at h
      · simp [save_model_m, if_neg h1, if_pos h2]
      · simp [save_model_m, if_neg h1, if_pos h2] at h
    · by_cases h3 : wformat = "h5"
      · refine ⟨fun h => ?_, fun h => ?_, fun h => ?_⟩ <;>
          simp [save_model_m, if_neg h1, if_neg h2, if_pos h3] at h
      · by_cases h4 : wformat = "npz"
        · refine ⟨fun h => ?_, fun h => ?_, fun h => ?_⟩ <;>
            simp [save_model_m, if_neg h1, if_neg h2, if_neg h3, if_pos h4]
              at h
        · refine ⟨fun h => ?_, fun h => ?_, fun _ => ?_⟩
          · simp [save_model_m, if_neg h1, if_neg h2, if_neg h3, if_neg h4]
              at h
          · simp [save_model_m, if_neg h1, if_neg h2, if_neg h3, if_neg h4]
              at h
          · simp [save_model_m, if_neg h1, if_neg h2, if_neg h3, if_neg h4]

/-- Witness for claim C5: the two fail-fast usage errors and the late
unknown-format error, each evaluated at a concrete call. -/
theorem claim_C5_witness :
    (save_model_m "m.bin" "h5" true).1 = [] ∧
      (save_model_m "model.keras" "h5" false).1 = [] ∧
      (save_model_m "model.keras" "gif" true).1 =
        [SaveEv.archiveCreated, SaveEv.metadataWritten,
         SaveEv.configWritten] := by
  exact ⟨(claim_C5 "m.bin" "h5" true).1 (by decide),
    (claim_C5 "model.keras" "h5" false).2.1 (by decide),
    (claim_C5 "model.keras" "gif" true).2.2 (by decide)⟩

/-- Claim C6: `load_model` restores the saving-mode flag on every exit
path, and so does `save_model` whenever serialization does not raise; but
on the exit path where `serialize_keras_object`/`json.dumps` raises —
code that runs after the flag is set yet outside the `try`/`finally` —
`save_model` leaks the flag stuck at `True` although it was `False`
before the call. -/
theorem claim_C6 :
    (∀ e : FlagEnv, (load_model_flag e).finalFlag = e.initialFlag) ∧
    (∀ e : FlagEnv, e.serializeRaises = false →
      (save_model_flag e).finalFlag = e.initialFlag) ∧
    (save_model_flag
        { initialFlag := false, serializeRaises := true,
          bodyRaises := false }).raised = true ∧
    (save_model_flag
        { initialFlag := false, serializeRaises := true,
          bodyRaises := false }).finalFlag = true ∧
    (FlagEnv.mk false true false).initialFlag = false := by
  refine ⟨fun e => rfl, ?_, rfl, rfl, rfl⟩
  intro e he
  simp [save_model_flag, he]

/-- Witness for claim C6: with serialization succeeding, `save_model`
restores a prior `True` flag value. -/
theorem claim_C6_witness :
    (save_model_flag
        { initialFlag := true, serializeRaises := false,
          bodyRaises := true }).finalFlag = true := by
  exact claim_C6.2.1
    { initialFlag := true, serializeRaises := false, bodyRaises := true } rfl

/-- Counterexample to claim C8 as stated: when the staged-files copy into
the archive raises, `DiskIOStore.close` propagates the exception before
reaching the removal step, leaking the temporary directory. -/
theorem claim_C8_counterexample :
    DiskIOStore_close
        { modeWrite := true, hasArchive := true, hasTmpDir := true,
          tmpExists := true, copyRaises := true } =
      { tmpRemoved := false, raised := true } := by
  rfl

/-- Claim C8 (amended): `DiskIOStore.close` removes the temporary
directory whenever the copy step either is not needed or succeeds; on the
failing-copy path the removal is skipped and the directory leaks. -/
theorem claim_C8 (e : DiskCloseEnv) :
    (e.modeWrite = true → e.hasArchive = true → e.copyRaises = true →
      DiskIOStore_close e = { tmpRemoved := false, raised := true }) ∧
    ((e.modeWrite && e.hasArchive && e.copyRaises) = false →
      e.hasTmpDir = true → e.tmpExists = true →
      DiskIOStore_close e = { tmpRemoved := true, raised := false }) := by
  constructor
  · intro hm ha hc
    simp [DiskIOStore_close, hm, ha, hc]
  · intro h hs ht
    by_cases hma : (e.modeWrite && e.hasArchive) = true
    · rw [hma] at h
      simp only [Bool.true_and] at h
      simp [DiskIOStore_close, hma, h, hs, ht]
    · simp [DiskIOStore_close, hma, hs, ht]

/-- Witness for claim C8: a read-mode store with an extracted temporary
directory removes it on close. -/
theorem claim_C8_witness :
    DiskIOStore_close
        { modeWrite := false, hasArchive := false, hasTmpDir := true,
          tmpExists := true, copyRaises := false } =
      { tmpRemoved := true, raised := false } := by
  exact (claim_C8
    { modeWrite := false, hasArchive := false, hasTmpDir := true,
      tmpExists := true, copyRaises := false }).2 (by decide) rfl rfl
